import Mathlib

/-!
Shallow embedding of the CSGO win-probability model-tuning notebooks
(`CSGO_Model_Tuning.ipynb` and its revised variant): date-based
train/test split, frequency and per-map baselines, one-hot encoding,
standardization, grid-search tuning, and the metric-reporting helper.

A dataframe row is modelled by the fields the claims touch: the game
date (as an integer ordinal, order-isomorphic to the pandas datetime
comparison), the map name, and the CT-win label (a rational, standing
for the float column).
-/

namespace CSGO

structure Row where
  GameDate : Int
  MapName : String
  CTWin : ℚ
deriving DecidableEq

/-- `train_df = df[df["GameDate"] < CUTOFF_DATE]`. -/
def train_df (df : List Row) (cutoff : Int) : List Row :=
  df.filter (fun r => r.GameDate < cutoff)

/-- `test_df = df[df["GameDate"] >= CUTOFF_DATE]`. -/
def test_df (df : List Row) (cutoff : Int) : List Row :=
  df.filter (fun r => cutoff ≤ r.GameDate)

/-- Mean of a list of rationals, as `pandas.Series.mean` computes it
(sum divided by count); only used under nonemptiness hypotheses, since
pandas returns NaN on an empty series. -/
def qmean (xs : List ℚ) : ℚ := xs.sum / xs.length

end CSGO

namespace CSGO

/-! ### Baselines

`test_df["BaselinePred"] = train_df.CTWin.mean()` broadcasts the global
training win rate to every test row; `baseline_map` looks up a per-map
training win rate for every test row. -/

/-- First-occurrence deduplication, as `Series.unique()` computes it. -/
def uniqAux (seen : List String) : List String → List String
  | [] => []
  | x :: xs => if x ∈ seen then uniqAux seen xs else x :: uniqAux (x :: seen) xs

/-- The distinct map names of a set of rows, as
`Series.unique()` / `groupby("MapName")` produce them (each name once). -/
def uniqueMaps (rows : List Row) : List String :=
  uniqAux [] (rows.map (·.MapName))

/-- Mean CTWin of the training rows played on map `m`: one group of
`train.groupby("MapName").CTWin.mean()`. -/
def groupMean (train : List Row) (m : String) : ℚ :=
  qmean ((train.filter (fun t => t.MapName = m)).map (·.CTWin))

/-- `map_win_rate = train.groupby("MapName").CTWin.mean().reset_index()`:
one (MapName, PredWinRate) pair per map occurring in the training rows. -/
def map_win_rate (train : List Row) : List (String × ℚ) :=
  (uniqueMaps train).map (fun m => (m, groupMean train m))

/-- `map_win_rate[map_win_rate["MapName"] == map_name].PredWinRate.values[0]`:
the first rate whose map equals `map_name`.  `.values[0]` of an empty
selection raises IndexError, modelled by `none` (`List.head?`). -/
def rateLookup (mwr : List (String × ℚ)) (m : String) : Option ℚ :=
  ((mwr.filter (fun p => p.1 = m)).map Prod.snd).head?

/-- The loop body of `baseline_map`: for each map name of the test set,
take the test subset on that map and overwrite its `PredMapWinRate`
column with the looked-up training rate; a failing lookup aborts the
whole run (the IndexError). -/
def mapSubsetLoop (mwr : List (String × ℚ)) (testd : List (Row × ℚ)) :
    List String → Option (List (List (Row × ℚ)))
  | [] => some []
  | m :: ms =>
    match rateLookup mwr m with
    | none => none
    | some rate =>
      match mapSubsetLoop mwr testd ms with
      | none => none
      | some rest =>
        some (((testd.filter (fun p => p.1.MapName = m)).map
          (fun p => (p.1, rate))) :: rest)

/-- `baseline_map(train, test)`: rows paired with their final
`PredMapWinRate` column (initialised to 0.5, then overwritten per map
subset, then `pd.concat`enated); `none` models the run aborting with an
IndexError. -/
def baseline_map (train test : List Row) : Option (List (Row × ℚ)) :=
  (mapSubsetLoop (map_win_rate train) (test.map (fun r => (r, (1 : ℚ)/2)))
      (uniqueMaps test)).map List.flatten

/-- `train_df.CTWin.mean()`: the global training win rate. -/
def baselinePred (train : List Row) : ℚ :=
  qmean (train.map (·.CTWin))

/-- `test_df["BaselinePred"] = train_df.CTWin.mean()`: the scalar is
broadcast to every test row. -/
def baselinePredictions (train test : List Row) : List ℚ :=
  test.map (fun _ => baselinePred train)


end CSGO

namespace CSGO

/-! ### Metrics

The notebook evaluates every model through `print_results`, which prints
log loss, Brier score, ROC AUC and accuracy, the last three computed
from the class-1 probability column `y_pred_probs[:,1]`.  The metric
functions are sklearn library calls, embedded here by their documented
mathematical definitions. -/

/-- `np.column_stack((1 - p, p))`: the two-column probability matrix
handed to `print_results`, as a list of (class-0, class-1) pairs. -/
def stackProbs (ps : List ℚ) : List (ℚ × ℚ) :=
  List.zip (ps.map (fun p => 1 - p)) ps

/-- `brier_score_loss(y_true, p)`: mean squared difference between label
and predicted class-1 probability. -/
def brier_score_loss (y : List ℚ) (p : List ℚ) : ℚ :=
  qmean (List.zipWith (fun t q => (t - q)^2) y p)

/-- One summand of the Mann–Whitney statistic: a positive/negative score
pair contributes 1 when the positive outscores the negative, 1/2 on a
tie, 0 otherwise. -/
def aucPairScore (sp sn : ℚ) : ℚ :=
  if sn < sp then 1 else if sp = sn then 1/2 else 0

/-- `roc_auc_score(y_true, scores)`: the normalised Mann–Whitney
statistic over positive (label 1) / negative (label 0) pairs, which is
what sklearn's trapezoidal ROC computation returns. -/
def roc_auc_score (y : List ℚ) (s : List ℚ) : ℚ :=
  let pairs := y.zip s
  let pos := pairs.filter (fun p => p.1 = 1)
  let neg := pairs.filter (fun p => p.1 = 0)
  ((pos.map (fun p => (neg.map (fun q => aucPairScore p.2 q.2)).sum)).sum)
    / (pos.length * neg.length)

/-- `y_pred_probs[:,1] >= 0.5` coerced to a 0/1 label, as
`accuracy_score` receives it. -/
def classify (p : ℚ) : ℚ :=
  if 1/2 ≤ p then 1 else 0

/-- `accuracy_score(y_true, y_pred)`: fraction of positions where label
and predicted label agree. -/
def accuracy_score (y : List ℚ) (pred : List ℚ) : ℚ :=
  qmean (List.zipWith (fun t q => if t = q then (1 : ℚ) else 0) y pred)

/-- `log_loss(y_true, y_pred_probs)` on a two-column input: mean
negative log of the probability assigned to the true class (column 1
for label 1, column 0 otherwise). -/
noncomputable def log_loss (y : List ℚ) (probs : List (ℚ × ℚ)) : ℝ :=
  -(List.zipWith
      (fun t (pq : ℚ × ℚ) => Real.log (if t = 1 then (pq.2 : ℝ) else (pq.1 : ℝ)))
      y probs).sum / y.length

/-- `print_results(y_true_labels, y_pred_probs)`: the four metric values,
in the order they are printed. -/
noncomputable def print_results (y : List ℚ) (probs : List (ℚ × ℚ)) : List ℝ :=
  [log_loss y probs,
   (brier_score_loss y (probs.map Prod.snd) : ℝ),
   (roc_auc_score y (probs.map Prod.snd) : ℝ),
   (accuracy_score y ((probs.map Prod.snd).map classify) : ℝ)]

end CSGO

namespace CSGO

/-! ### Grid-search tuning

`GridSearchCV(xgb, param_grid=xgb_params, cv=KFold(n_splits=5, ...),
scoring="neg_log_loss")` fits every combination of the declared grid,
scores each by the mean of its five cross-validation fold scores, and
exposes the argmax as `best_estimator_`, which the notebook saves and
evaluates.  Fold scores are abstracted as a function of the parameter
combination and the fold index. -/

structure XgbParams where
  max_depth : Nat
  colsample_bytree : ℚ
  learning_rate : ℚ
  min_child_weight : Nat
deriving DecidableEq

/-- `"max_depth" : [6, 8, 10, 12, 14]`. -/
def max_depth_grid : List Nat := [6, 8, 10, 12, 14]

/-- `"colsample_bytree" : [0.2, 0.4, 0.6, 0.8]`. -/
def colsample_bytree_grid : List ℚ := [2/10, 4/10, 6/10, 8/10]

/-- `"learning_rate" : [0.01, 0.05, 0.1, 0.2]`. -/
def learning_rate_grid : List ℚ := [1/100, 5/100, 1/10, 2/10]

/-- `"min_child_weight" : [1, 3, 5, 7]`. -/
def min_child_weight_grid : List Nat := [1, 3, 5, 7]

/-- The Cartesian product of the declared grid, the candidate list
`ParameterGrid(xgb_params)` enumerates. -/
def xgb_candidates : List XgbParams :=
  max_depth_grid.flatMap (fun d =>
    colsample_bytree_grid.flatMap (fun c =>
      learning_rate_grid.flatMap (fun lr =>
        min_child_weight_grid.map (fun w => ⟨d, c, lr, w⟩))))

/-- `KFold(n_splits=5, random_state=RANDOM_STATE, shuffle=True)`. -/
def xgb_n_splits : Nat := 5

/-- `scoring="neg_log_loss"`. -/
def xgb_scoring : String := "neg_log_loss"

/-- `mean_test_score`: the mean of the five cross-validation fold scores
of a parameter combination. -/
def mean_cv_score (foldScore : XgbParams → Nat → ℚ) (p : XgbParams) : ℚ :=
  qmean ((List.range xgb_n_splits).map (foldScore p))

/-- One comparison step of the argmax over candidates: a strictly
better-scoring candidate replaces the incumbent (so numpy's argmax
keeps the first maximiser on ties). -/
def betterOf (score : XgbParams → ℚ) (best : Option XgbParams)
    (p : XgbParams) : Option XgbParams :=
  match best with
  | none => some p
  | some b => if score b < score p then some p else some b

/-- `best_estimator_`: the candidate with the greatest mean
cross-validated score. -/
def best_estimator (grid : List XgbParams) (score : XgbParams → ℚ) :
    Option XgbParams :=
  grid.foldl (betterOf score) none

end CSGO

namespace CSGO

/-! ### One-hot encoding

`pd.get_dummies(df, columns=["MapName"], drop_first=False)` replaces the
categorical column by one 0/1 indicator column `MapName_<m>` per
category; the notebook saves the original column first and writes it
back afterwards (`df["MapName"] = map_names`), and the revised notebook
repeats this for `BombSite`.  A row is an association list from column
names to values, looked up left to right as a dataframe with unique
column labels is. -/

inductive Val where
  | str (s : String)
  | num (q : ℚ)
deriving DecidableEq

abbrev DRow := List (String × Val)

/-- The value of column `c` in row `r` (first entry with that name). -/
def getVal (r : DRow) (c : String) : Option Val :=
  (r.find? (fun p => p.1 = c)).map Prod.snd

/-- The string values of column `col` down a dataframe. -/
def colStrs (df : List DRow) (col : String) : List String :=
  df.filterMap (fun r =>
    match getVal r col with
    | some (.str s) => some s
    | _ => none)

/-- The categories `get_dummies` encodes: the distinct values of the
column. -/
def categories (df : List DRow) (col : String) : List String :=
  uniqAux [] (colStrs df col)

/-- The indicator columns `<col>_<m>` appended for one row: 1 where the
row's value equals the category, 0 elsewhere. -/
def dummyCols (cats : List String) (col : String) (r : DRow) : DRow :=
  cats.map (fun m => (col ++ "_" ++ m,
    Val.num (if getVal r col = some (.str m) then 1 else 0)))

/-- `pd.get_dummies(df, columns=[col], drop_first=False)`: drop the
categorical column, append its indicator columns. -/
def get_dummies (df : List DRow) (col : String) : List DRow :=
  df.map (fun r =>
    (r.filter (fun p => p.1 ≠ col)) ++ dummyCols (categories df col) col r)

/-- `df[col] = saved`: write the saved column back (it re-appears as the
last column). -/
def restoreCol (df : List DRow) (col : String) (saved : List (Option Val)) :
    List DRow :=
  List.zipWith (fun r v =>
    match v with
    | some v => r ++ [(col, v)]
    | none => r) df saved

/-- One save/encode/restore round of the notebook for one categorical
column. -/
def encodeStep (df : List DRow) (col : String) : List DRow :=
  restoreCol (get_dummies df col) col (df.map (fun r => getVal r col))

/-- The revised notebook's preprocessing cell: encode `MapName`, then
`BombSite`, restoring each original column. -/
def preprocess (df : List DRow) : List DRow :=
  encodeStep (encodeStep df "MapName") "BombSite"


/-- The processed form of one row after one save/encode/restore round:
the categorical column is dropped, the indicator columns are appended,
and the saved value (when the row had one) is appended last. -/
def stepRow (cats : List String) (col : String) (r : DRow) : DRow :=
  match getVal r col with
  | some v =>
    ((r.filter (fun p => p.1 ≠ col)) ++ dummyCols cats col r) ++ [(col, v)]
  | none => (r.filter (fun p => p.1 ≠ col)) ++ dummyCols cats col r


end CSGO

namespace CSGO

/-! ### Standardization

`scaler = StandardScaler().fit(X_train[cols_scaled].values)` records the
per-column mean and standard deviation of the training sub-matrix;
`scaler.transform` then applies `x ↦ (x − mean)/std` column-wise, and
the notebook assigns the result back into both the train and the test
frame (`X[cols_scaled] = scaler.transform(X[cols_scaled].values)`).
A frame is column-oriented: a list of (name, values) columns. -/

abbrev RFrame := List (String × List ℝ)

/-- The values of column `c` (first column with that name). -/
def lookupCol (df : RFrame) (c : String) : List ℝ :=
  ((df.find? (fun p => p.1 = c)).map Prod.snd).getD []

/-- Per-column mean, as `StandardScaler` fits it. -/
noncomputable def colMean (xs : List ℝ) : ℝ := xs.sum / xs.length

/-- Per-column (population) variance, as `StandardScaler` fits it. -/
noncomputable def colVar (xs : List ℝ) : ℝ :=
  ((xs.map (fun x => (x - colMean xs)^2)).sum) / xs.length

/-- Per-column standard deviation `scale_ = sqrt(var_)`. -/
noncomputable def colStd (xs : List ℝ) : ℝ := Real.sqrt (colVar xs)

/-- `StandardScaler().fit(train[cols].values)`: the (mean, std) pair of
every listed column, computed from the training rows. -/
noncomputable def fitStats (train : RFrame) (cols : List String) :
    List (ℝ × ℝ) :=
  cols.map (fun c => (colMean (lookupCol train c), colStd (lookupCol train c)))

/-- `scaler.transform(sub.values)`: apply `x ↦ (x − mean)/std` to each
column of the sub-matrix with the fitted statistics. -/
noncomputable def transformSub (stats : List (ℝ × ℝ)) (sub : List (List ℝ)) :
    List (List ℝ) :=
  List.zipWith (fun st xs => xs.map (fun x => (x - st.1) / st.2)) stats sub

/-- `X[cols] = newSub`: replace each listed column by its transformed
values (matched by its position in `cols`), leaving other columns
untouched. -/
def assignCols (target : RFrame) (cols : List String)
    (newSub : List (List ℝ)) : RFrame :=
  target.map (fun p =>
    if p.1 ∈ cols then (p.1, newSub.getD (cols.indexOf p.1) []) else p)

/-- The whole scaling step applied to a frame: fit on the training
columns, transform the target's listed columns, assign back. -/
noncomputable def scaleFrame (train target : RFrame) (cols : List String) :
    RFrame :=
  assignCols target cols
    (transformSub (fitStats train cols) (cols.map (fun c => lookupCol target c)))

/-- The `cols_scaled` list of the revised notebook. -/
def cols_scaled : List String :=
  ["TicksSinceStart", "CTEqVal", "TEqVal", "TRemaining", "CTRemaining",
   "THpRemaining", "CTHpRemaining", "BombPlanted", "CTDistBombsiteA",
   "CTDistBombsiteB", "TDistBombsiteA", "TDistBombsiteB"]

end CSGO

namespace CSGO


/-- Counting an element in a filtered list: all occurrences survive when
the element satisfies the predicate, none otherwise. -/
theorem count_filter_if {α : Type} [DecidableEq α] (p : α → Bool) (r : α)
    (l : List α) :
    (l.filter p).count r = if p r then l.count r else 0 := by
  induction l with
  | nil => simp
  | cons a as ih =>
    rw [List.filter_cons]
    by_cases hpa : p a
    · by_cases har : a = r
      · subst har
        simp [hpa, List.count_cons, ih]
      · simp [hpa, List.count_cons, har, ih]
    · by_cases har : a = r
      · subst har
        simp [hpa, List.count_cons, ih]
      · simp [hpa, List.count_cons, har, ih]

end CSGO

namespace CSGO

/-- C1: the date split sends a row to the training set iff its date is
strictly before the cutoff, to the test set iff its date is on or after
the cutoff; the two parts are disjoint, exhaust the dataframe (with
multiplicity), and a row dated exactly on the cutoff lands in the test
set. -/
theorem date_split_spec (df : List Row) (cutoff : Int) :
    (∀ r : Row, r ∈ train_df df cutoff ↔ (r ∈ df ∧ r.GameDate < cutoff)) ∧
    (∀ r : Row, r ∈ test_df df cutoff ↔ (r ∈ df ∧ cutoff ≤ r.GameDate)) ∧
    (∀ r : Row, ¬ (r ∈ train_df df cutoff ∧ r ∈ test_df df cutoff)) ∧
    (∀ r : Row, (train_df df cutoff).count r + (test_df df cutoff).count r
        = df.count r) ∧
    (∀ r : Row, r ∈ df → r.GameDate = cutoff → r ∈ test_df df cutoff) := by
  refine ⟨?_, ?_, ?_, ?_, ?_⟩
  · intro r
    simp [train_df, List.mem_filter]
  · intro r
    simp [test_df, List.mem_filter]
  · rintro r ⟨htr, hte⟩
    rw [train_df, List.mem_filter] at htr
    rw [test_df, List.mem_filter] at hte
    have h1 : r.GameDate < cutoff := by simpa using htr.2
    have h2 : cutoff ≤ r.GameDate := by simpa using hte.2
    exact absurd h2 (not_le.mpr h1)
  · intro r
    rw [train_df, test_df, count_filter_if, count_filter_if]
    by_cases hlt : r.GameDate < cutoff
    · simp [hlt, not_le.mpr hlt]
    · simp [hlt, not_lt.mp hlt]
  · intro r hmem heq
    rw [test_df, List.mem_filter]
    exact ⟨hmem, by simp [heq]⟩

end CSGO

namespace CSGO

theorem mem_uniqAux (l : List String) : ∀ (seen : List String) (m : String),
    m ∈ uniqAux seen l ↔ m ∈ l ∧ m ∉ seen := by
  induction l with
  | nil => intro seen m; simp [uniqAux]
  | cons x xs ih =>
    intro seen m
    rw [uniqAux]
    by_cases hx : x ∈ seen
    · rw [if_pos hx, ih]
      constructor
      · rintro ⟨h1, h2⟩
        exact ⟨List.mem_cons_of_mem _ h1, h2⟩
      · rintro ⟨h1, h2⟩
        rcases List.mem_cons.mp h1 with h | h
        · subst h; exact absurd hx h2
        · exact ⟨h, h2⟩
    · rw [if_neg hx, List.mem_cons, ih]
      constructor
      · rintro (h | ⟨h1, h2⟩)
        · subst h; exact ⟨List.mem_cons_self _ _, hx⟩
        · exact ⟨List.mem_cons_of_mem _ h1,
            fun hs => h2 (List.mem_cons_of_mem _ hs)⟩
      · rintro ⟨h1, h2⟩
        rcases List.mem_cons.mp h1 with h | h
        · exact Or.inl h
        · by_cases hmx : m = x
          · exact Or.inl hmx
          · refine Or.inr ⟨h, fun hs => ?_⟩
            rcases List.mem_cons.mp hs with h' | h'
            · exact hmx h'
            · exact h2 h'

theorem mem_uniqueMaps (rows : List Row) (m : String) :
    m ∈ uniqueMaps rows ↔ ∃ r ∈ rows, r.MapName = m := by
  rw [uniqueMaps, mem_uniqAux]
  simp [List.mem_map]

theorem rateLookup_map_win_rate (train : List Row) (m : String) :
    rateLookup (map_win_rate train) m =
      if m ∈ uniqueMaps train then some (groupMean train m) else none := by
  rw [map_win_rate]
  induction uniqueMaps train with
  | nil => simp [rateLookup]
  | cons a as ih =>
    by_cases ham : a = m
    · subst ham
      simp [rateLookup, List.filter_cons]
    · simp only [List.map_cons, rateLookup, List.filter_cons,
        decide_eq_true_eq] at ih ⊢
      rw [if_neg (show ¬ ((a, groupMean train a).1 = m) from ham), ih]
      have hma : ¬ m = a := fun h => ham h.symm
      simp [List.mem_cons, hma]

/-- A failing lookup anywhere in the list of maps aborts the loop. -/
theorem mapSubsetLoop_none (mwr : List (String × ℚ)) (testd : List (Row × ℚ))
    (ms : List String) (m : String) (hm : m ∈ ms)
    (hfail : rateLookup mwr m = none) :
    mapSubsetLoop mwr testd ms = none := by
  induction ms with
  | nil => cases hm
  | cons a as ih =>
    rw [mapSubsetLoop]
    rcases List.mem_cons.mp hm with ha | ha
    · subst ha
      rw [hfail]
    · cases hla : rateLookup mwr a with
      | none => rfl
      | some rate => rw [ih ha]

/-- On success, every emitted prediction is the looked-up rate of the
row's own map. -/
theorem mapSubsetLoop_pred_lookup (mwr : List (String × ℚ))
    (testd : List (Row × ℚ)) (ms : List String)
    (ls : List (List (Row × ℚ)))
    (hs : mapSubsetLoop mwr testd ms = some ls) :
    ∀ pr ∈ ls.flatten, rateLookup mwr pr.1.MapName = some pr.2 := by
  induction ms generalizing ls with
  | nil =>
    rw [mapSubsetLoop] at hs
    cases hs
    simp
  | cons a as ih =>
    rw [mapSubsetLoop] at hs
    cases hla : rateLookup mwr a with
    | none => rw [hla] at hs; cases hs
    | some rate =>
      rw [hla] at hs
      cases hrest : mapSubsetLoop mwr testd as with
      | none => rw [hrest] at hs; cases hs
      | some rest =>
        rw [hrest] at hs
        cases hs
        intro pr hpr
        rcases List.mem_flatten.mp hpr with ⟨l, hl, hprl⟩
        rcases List.mem_cons.mp hl with h1 | h1
        · subst h1
          rcases List.mem_map.mp hprl with ⟨p, hp, hpe⟩
          have hpm : p.1.MapName = a := by
            have := (List.mem_filter.mp hp).2
            simpa using this
          subst hpe
          simpa [hpm] using hla
        · exact ih rest hrest pr (List.mem_flatten.mpr ⟨l, h1, hprl⟩)

/-- On success, every test row on a looked-up map receives that rate. -/
theorem mapSubsetLoop_pred_mem (mwr : List (String × ℚ))
    (testd : List (Row × ℚ)) (ms : List String)
    (ls : List (List (Row × ℚ)))
    (hs : mapSubsetLoop mwr testd ms = some ls)
    (m : String) (hm : m ∈ ms) (rate : ℚ)
    (hrate : rateLookup mwr m = some rate) :
    ∀ p ∈ testd, p.1.MapName = m → (p.1, rate) ∈ ls.flatten := by
  induction ms generalizing ls with
  | nil => cases hm
  | cons a as ih =>
    rw [mapSubsetLoop] at hs
    cases hla : rateLookup mwr a with
    | none => rw [hla] at hs; cases hs
    | some ra =>
      rw [hla] at hs
      cases hrest : mapSubsetLoop mwr testd as with
      | none => rw [hrest] at hs; cases hs
      | some rest =>
        rw [hrest] at hs
        cases hs
        intro p hp hpm
        rcases List.mem_cons.mp hm with h1 | h1
        · subst h1
          rw [hla] at hrate
          cases hrate
          refine List.mem_flatten.mpr ⟨_, List.mem_cons_self _ _, ?_⟩
          exact List.mem_map.mpr ⟨p, List.mem_filter.mpr ⟨hp, by simpa using hpm⟩, rfl⟩
        · rcases List.mem_flatten.mp (ih rest hrest h1 p hp hpm) with ⟨l, hl, hpl⟩
          exact List.mem_flatten.mpr ⟨l, List.mem_cons_of_mem _ hl, hpl⟩


end CSGO

namespace CSGO

/-- C2: on a successful run, the per-map baseline's prediction for a test
row whose map occurs in training is exactly the mean CTWin of the
training rows on that map — such a prediction is emitted for the row,
and every prediction emitted for it equals that mean. -/
theorem baseline_map_is_group_mean (train test : List Row)
    (preds : List (Row × ℚ)) (hs : baseline_map train test = some preds)
    (r : Row) (hr : r ∈ test) (hocc : ∃ t ∈ train, t.MapName = r.MapName) :
    (r, groupMean train r.MapName) ∈ preds ∧
      ∀ q : ℚ, (r, q) ∈ preds → q = groupMean train r.MapName := by
  rw [baseline_map] at hs
  cases hloop : mapSubsetLoop (map_win_rate train)
      (test.map (fun r => (r, (1 : ℚ)/2))) (uniqueMaps test) with
  | none => rw [hloop] at hs; cases hs
  | some ls =>
    rw [hloop] at hs
    cases hs
    have hmem : r.MapName ∈ uniqueMaps test :=
      (mem_uniqueMaps test r.MapName).mpr ⟨r, hr, rfl⟩
    have hocc' : r.MapName ∈ uniqueMaps train :=
      (mem_uniqueMaps train r.MapName).mpr hocc
    have hrate : rateLookup (map_win_rate train) r.MapName
        = some (groupMean train r.MapName) := by
      rw [rateLookup_map_win_rate, if_pos hocc']
    constructor
    · exact mapSubsetLoop_pred_mem _ _ _ _ hloop _ hmem _ hrate
        (r, (1 : ℚ)/2) (List.mem_map.mpr ⟨r, hr, rfl⟩) rfl
    · intro q hq
      have := mapSubsetLoop_pred_lookup _ _ _ _ hloop (r, q) hq
      rw [hrate] at this
      exact (Option.some_inj.mp this).symm

/-- Witness for C2 at a concrete training and test set. -/
theorem baseline_map_is_group_mean_witness :
    baseline_map
        [⟨0, "de_mirage", 1⟩, ⟨0, "de_mirage", 0⟩, ⟨1, "de_nuke", 1⟩]
        [⟨5, "de_mirage", 1⟩]
      = some [(⟨5, "de_mirage", 1⟩, 1/2)] ∧
    (⟨5, "de_mirage", 1⟩ : Row) ∈ ([⟨5, "de_mirage", 1⟩] : List Row) ∧
    ((⟨5, "de_mirage", 1⟩, groupMean
        [⟨0, "de_mirage", 1⟩, ⟨0, "de_mirage", 0⟩, ⟨1, "de_nuke", 1⟩]
        "de_mirage") ∈ [((⟨5, "de_mirage", 1⟩ : Row), (1/2 : ℚ))]) := by
  refine ⟨by simp [baseline_map, map_win_rate, uniqueMaps, groupMean, qmean,
      rateLookup, mapSubsetLoop, uniqAux], by decide, ?_⟩
  exact (baseline_map_is_group_mean
      [⟨0, "de_mirage", 1⟩, ⟨0, "de_mirage", 0⟩, ⟨1, "de_nuke", 1⟩]
      [⟨5, "de_mirage", 1⟩] [(⟨5, "de_mirage", 1⟩, 1/2)]
      (by simp [baseline_map, map_win_rate, uniqueMaps, groupMean, qmean,
        rateLookup, mapSubsetLoop, uniqAux])
      ⟨5, "de_mirage", 1⟩ (by decide)
      ⟨⟨0, "de_mirage", 1⟩, by decide, by decide⟩).1

/-- C3: when some test map occurs in no training row, the per-map
baseline aborts with the IndexError from `.values[0]` (modelled `none`),
so no test row — in particular none carrying the 0.5 default — ever
receives a prediction. -/
theorem baseline_map_missing_map_aborts (train test : List Row)
    (hmiss : ∃ r ∈ test, ∀ t ∈ train, t.MapName ≠ r.MapName) :
    baseline_map train test = none ∧
      ∀ preds : List (Row × ℚ), ¬ baseline_map train test = some preds := by
  rcases hmiss with ⟨r, hr, hmiss⟩
  have hmemt : r.MapName ∈ uniqueMaps test :=
    (mem_uniqueMaps test r.MapName).mpr ⟨r, hr, rfl⟩
  have hnotr : r.MapName ∉ uniqueMaps train := by
    rw [mem_uniqueMaps]
    rintro ⟨t, ht, hte⟩
    exact hmiss t ht hte
  have hfail : rateLookup (map_win_rate train) r.MapName = none := by
    rw [rateLookup_map_win_rate, if_neg hnotr]
  have hnone : baseline_map train test = none := by
    rw [baseline_map, mapSubsetLoop_none _ _ _ _ hmemt hfail]
    rfl
  exact ⟨hnone, fun preds hsome => by rw [hnone] at hsome; cases hsome⟩

/-- Witness for C3 at a concrete training and test set. -/
theorem baseline_map_missing_map_aborts_witness :
    (∃ r ∈ ([⟨5, "de_vertigo", 0⟩] : List Row),
        ∀ t ∈ ([⟨0, "de_dust2", 1⟩] : List Row), t.MapName ≠ r.MapName) ∧
    baseline_map [⟨0, "de_dust2", 1⟩] [⟨5, "de_vertigo", 0⟩] = none := by
  refine ⟨⟨⟨5, "de_vertigo", 0⟩, by decide, by decide⟩, ?_⟩
  exact (baseline_map_missing_map_aborts [⟨0, "de_dust2", 1⟩]
      [⟨5, "de_vertigo", 0⟩]
      ⟨⟨5, "de_vertigo", 0⟩, by decide, by decide⟩).1

/-- C4: the frequency baseline broadcasts one and the same prediction —
the mean CTWin over all training rows — to every test row, independent
of the test row's features. -/
theorem baselinePred_constant (train test : List Row) (h : train ≠ []) :
    baselinePredictions train test
        = List.replicate test.length (qmean (train.map (·.CTWin))) ∧
    ∀ p ∈ baselinePredictions train test,
        p = qmean (train.map (·.CTWin)) := by
  constructor
  · rw [baselinePredictions, baselinePred]
    simp [List.map_const']
  · intro p hp
    rcases List.mem_map.mp hp with ⟨r, _, he⟩
    exact he.symm

/-- Witness for C4 at a concrete training and test set. -/
theorem baselinePred_constant_witness :
    baselinePredictions [⟨0, "de_dust2", 1⟩]
        [⟨10, "de_dust2", 0⟩, ⟨11, "de_nuke", 1⟩]
      = List.replicate 2 (qmean [1]) :=
  (baselinePred_constant [⟨0, "de_dust2", 1⟩]
      [⟨10, "de_dust2", 0⟩, ⟨11, "de_nuke", 1⟩] (by decide)).1

end CSGO

namespace CSGO

theorem sum_le_length_of_le_one (xs : List ℚ) (h : ∀ x ∈ xs, x ≤ 1) :
    xs.sum ≤ xs.length := by
  induction xs with
  | nil => simp
  | cons a as ih =>
    simp only [List.sum_cons, List.length_cons]
    have hrec := ih (fun x hx => h x (List.mem_cons_of_mem _ hx))
    have ha := h a (List.mem_cons_self _ _)
    push_cast
    linarith

/-- The mean of a nonempty list of 0/1 labels lies in [0, 1]. -/
theorem qmean_unit_interval (xs : List ℚ) (hne : xs ≠ [])
    (h : ∀ x ∈ xs, x = 0 ∨ x = 1) : 0 ≤ qmean xs ∧ qmean xs ≤ 1 := by
  have h01 : ∀ x ∈ xs, 0 ≤ x ∧ x ≤ 1 := by
    intro x hx
    rcases h x hx with h | h <;> simp [h]
  have hsumnn : 0 ≤ xs.sum := List.sum_nonneg (fun x hx => (h01 x hx).1)
  have hsumle : xs.sum ≤ xs.length :=
    sum_le_length_of_le_one xs (fun x hx => (h01 x hx).2)
  have hlen : (0 : ℚ) < xs.length := by
    have := List.length_pos.mpr hne
    exact_mod_cast this
  constructor
  · exact div_nonneg hsumnn (le_of_lt hlen)
  · exact (div_le_one hlen).mpr hsumle

theorem stackProbs_row_sum (ps : List ℚ) :
    ∀ q ∈ stackProbs ps, q.1 + q.2 = 1 := by
  induction ps with
  | nil => simp [stackProbs]
  | cons p ps ih =>
    intro q hq
    rw [stackProbs, List.map_cons, List.zip_cons_cons] at hq
    rcases List.mem_cons.mp hq with h | h
    · subst h; simp
    · exact ih q (by rw [stackProbs]; exact h)

/-- The per-map rate attached to any successful prediction is a group
mean over a nonempty training group. -/
theorem baseline_map_rate_is_mean (train test : List Row)
    (preds : List (Row × ℚ)) (hs : baseline_map train test = some preds) :
    ∀ pr ∈ preds, pr.2 = groupMean train pr.1.MapName ∧
      pr.1.MapName ∈ uniqueMaps train := by
  rw [baseline_map] at hs
  cases hloop : mapSubsetLoop (map_win_rate train)
      (test.map (fun r => (r, (1 : ℚ)/2))) (uniqueMaps test) with
  | none => rw [hloop] at hs; cases hs
  | some ls =>
    rw [hloop] at hs
    cases hs
    intro pr hpr
    have hlk := mapSubsetLoop_pred_lookup _ _ _ _ hloop pr hpr
    rw [rateLookup_map_win_rate] at hlk
    by_cases hmem : pr.1.MapName ∈ uniqueMaps train
    · rw [if_pos hmem] at hlk
      exact ⟨(Option.some_inj.mp hlk).symm, hmem⟩
    · rw [if_neg hmem] at hlk
      cases hlk

/-- C9: with binary labels and a nonempty training set, the frequency
baseline's prediction and every successful per-map prediction lie in
[0, 1], and every row of the stacked two-column matrices handed to
`print_results` sums to exactly 1. -/
theorem predictions_are_probabilities (train test : List Row)
    (hne : train ≠ []) (hlab : ∀ r ∈ train, r.CTWin = 0 ∨ r.CTWin = 1) :
    (0 ≤ baselinePred train ∧ baselinePred train ≤ 1) ∧
    (∀ preds : List (Row × ℚ), baseline_map train test = some preds →
        ∀ pr ∈ preds, 0 ≤ pr.2 ∧ pr.2 ≤ 1) ∧
    (∀ q ∈ stackProbs (baselinePredictions train test), q.1 + q.2 = 1) ∧
    (∀ preds : List (Row × ℚ), baseline_map train test = some preds →
        ∀ q ∈ stackProbs (preds.map Prod.snd), q.1 + q.2 = 1) := by
  refine ⟨?_, ?_, fun q hq => stackProbs_row_sum _ q hq,
    fun preds _ q hq => stackProbs_row_sum _ q hq⟩
  · rw [baselinePred]
    apply qmean_unit_interval
    · simpa using hne
    · intro x hx
      rcases List.mem_map.mp hx with ⟨r, hr, he⟩
      exact he ▸ hlab r hr
  · intro preds hs pr hpr
    rcases baseline_map_rate_is_mean train test preds hs pr hpr with ⟨hval, hmem⟩
    rcases (mem_uniqueMaps train pr.1.MapName).mp hmem with ⟨t, ht, hte⟩
    rw [hval, groupMean]
    apply qmean_unit_interval
    · have : t ∈ train.filter (fun u => u.MapName = pr.1.MapName) :=
        List.mem_filter.mpr ⟨ht, by simpa using hte⟩
      exact fun hnil => by
        rw [List.map_eq_nil_iff] at hnil
        rw [hnil] at this
        cases this
    · intro x hx
      rcases List.mem_map.mp hx with ⟨u, hu, he⟩
      exact he ▸ hlab u (List.mem_filter.mp hu).1

/-- Witness for C9 at a concrete training and test set. -/
theorem predictions_are_probabilities_witness :
    0 ≤ baselinePred [⟨0, "de_dust2", 1⟩, ⟨0, "de_dust2", 0⟩] ∧
    baselinePred [⟨0, "de_dust2", 1⟩, ⟨0, "de_dust2", 0⟩] ≤ 1 :=
  (predictions_are_probabilities
      [⟨0, "de_dust2", 1⟩, ⟨0, "de_dust2", 0⟩] [⟨9, "de_dust2", 1⟩]
      (by decide) (by decide)).1

/-- C10: the frequency baseline scores every test row identically, so on
any test set containing both classes its reported ROC AUC is exactly
0.5. -/
theorem baseline_auc_is_half (train test : List Row)
    (hpos : ∃ r ∈ test, r.CTWin = 1) (hneg : ∃ r ∈ test, r.CTWin = 0) :
    (∀ p ∈ baselinePredictions train test,
        ∀ q ∈ baselinePredictions train test, p = q) ∧
    roc_auc_score (test.map (·.CTWin)) (baselinePredictions train test)
      = 1/2 := by
  constructor
  · intro p hp q hq
    rcases List.mem_map.mp hp with ⟨_, _, hpe⟩
    rcases List.mem_map.mp hq with ⟨_, _, hqe⟩
    rw [← hpe, ← hqe]
  · have hzip : (test.map (·.CTWin)).zip (baselinePredictions train test)
        = test.map (fun r => (r.CTWin, baselinePred train)) := by
      rw [baselinePredictions]
      exact List.zip_map' _ _ _
    simp only [roc_auc_score, hzip]
    set pairs := test.map (fun r => (r.CTWin, baselinePred train)) with hpairs
    set pos := pairs.filter (fun p => p.1 = 1) with hposd
    set neg := pairs.filter (fun p => p.1 = 0) with hnegd
    have hsnd : ∀ q ∈ pairs, q.2 = baselinePred train := by
      intro q hq
      rcases List.mem_map.mp hq with ⟨r, _, he⟩
      rw [← he]
    have hinner : ∀ p ∈ pos,
        (neg.map (fun q => aucPairScore p.2 q.2)).sum
          = (neg.length : ℚ) * (1/2) := by
      intro p hp
      have hmc : neg.map (fun q => aucPairScore p.2 q.2)
          = neg.map (fun _ => (1 : ℚ)/2) := by
        apply List.map_congr_left
        intro q hq
        have h1 : p.2 = baselinePred train := hsnd p (List.mem_filter.mp hp).1
        have h2 : q.2 = baselinePred train := hsnd q (List.mem_filter.mp hq).1
        rw [h1, h2, aucPairScore]
        simp
      rw [hmc, List.map_const', List.sum_replicate, nsmul_eq_mul]
    have houter :
        (pos.map (fun p => (neg.map (fun q => aucPairScore p.2 q.2)).sum)).sum
          = (pos.length : ℚ) * ((neg.length : ℚ) * (1/2)) := by
      rw [List.map_congr_left hinner, List.map_const', List.sum_replicate,
        nsmul_eq_mul]
    rw [houter]
    have hposne : pos ≠ [] := by
      rcases hpos with ⟨r, hr, h1⟩
      have hmem : (r.CTWin, baselinePred train) ∈ pairs :=
        List.mem_map.mpr ⟨r, hr, rfl⟩
      exact List.ne_nil_of_mem
        (List.mem_filter.mpr ⟨hmem, by simp [h1]⟩)
    have hnegne : neg ≠ [] := by
      rcases hneg with ⟨r, hr, h0⟩
      have hmem : (r.CTWin, baselinePred train) ∈ pairs :=
        List.mem_map.mpr ⟨r, hr, rfl⟩
      exact List.ne_nil_of_mem
        (List.mem_filter.mpr ⟨hmem, by simp [h0]⟩)
    have hnp : ((pos.length : ℚ)) ≠ 0 := by
      exact_mod_cast Nat.cast_ne_zero.mpr
        (fun h => hposne (List.length_eq_zero.mp h))
    have hnn : ((neg.length : ℚ)) ≠ 0 := by
      exact_mod_cast Nat.cast_ne_zero.mpr
        (fun h => hnegne (List.length_eq_zero.mp h))
    field_simp
    ring

/-- Witness for C10 at a concrete training and test set. -/
theorem baseline_auc_is_half_witness :
    roc_auc_score
        (([⟨9, "de_dust2", 1⟩, ⟨9, "de_dust2", 0⟩] : List Row).map (·.CTWin))
        (baselinePredictions [⟨0, "de_dust2", 1⟩]
          [⟨9, "de_dust2", 1⟩, ⟨9, "de_dust2", 0⟩])
      = 1/2 :=
  (baseline_auc_is_half [⟨0, "de_dust2", 1⟩]
      [⟨9, "de_dust2", 1⟩, ⟨9, "de_dust2", 0⟩]
      ⟨⟨9, "de_dust2", 1⟩, by decide, by decide⟩
      ⟨⟨9, "de_dust2", 0⟩, by decide, by decide⟩).2

/-- C8: `print_results` reports exactly four metrics, in the order log
loss, Brier score, ROC AUC, accuracy; the latter three are computed from
the second (class-1) probability column, and accuracy classifies a row
as positive exactly when that probability is at least 0.5 (the boundary
0.5 itself counts as positive). -/
theorem print_results_spec (y : List ℚ) (probs : List (ℚ × ℚ)) :
    (print_results y probs).length = 4 ∧
    print_results y probs
      = [log_loss y probs,
         (brier_score_loss y (probs.map Prod.snd) : ℝ),
         (roc_auc_score y (probs.map Prod.snd) : ℝ),
         (accuracy_score y ((probs.map Prod.snd).map classify) : ℝ)] ∧
    (∀ p : ℚ, classify p = 1 ↔ 1/2 ≤ p) ∧
    (∀ p : ℚ, classify p = 0 ↔ p < 1/2) ∧
    classify (1/2) = 1 := by
  refine ⟨rfl, rfl, ?_, ?_, by norm_num [classify]⟩
  · intro p
    rw [classify]
    by_cases h : (1 : ℚ)/2 ≤ p
    · simp [h]
    · simp [h]
  · intro p
    rw [classify]
    by_cases h : (1 : ℚ)/2 ≤ p
    · simp [h, not_lt.mpr h]
    · simp [h, not_le.mp h]

theorem foldl_betterOf (score : XgbParams → ℚ) (l : List XgbParams) :
    ∀ b0 : XgbParams, ∃ b : XgbParams,
      l.foldl (betterOf score) (some b0) = some b ∧
      (b = b0 ∨ b ∈ l) ∧ score b0 ≤ score b ∧ ∀ p ∈ l, score p ≤ score b := by
  induction l with
  | nil =>
    intro b0
    exact ⟨b0, rfl, Or.inl rfl, le_refl _,
      fun p hp => absurd hp (List.not_mem_nil p)⟩
  | cons a l ih =>
    intro b0
    rw [List.foldl_cons]
    by_cases hlt : score b0 < score a
    · have hstep : betterOf score (some b0) a = some a := by
        simp [betterOf, hlt]
      rw [hstep]
      rcases ih a with ⟨b, hfold, hmem, hle, hall⟩
      refine ⟨b, hfold, ?_, le_of_lt (lt_of_lt_of_le hlt hle), ?_⟩
      · rcases hmem with h | h
        · exact Or.inr (h ▸ List.mem_cons_self _ _)
        · exact Or.inr (List.mem_cons_of_mem _ h)
      · intro p hp
        rcases List.mem_cons.mp hp with h | h
        · exact h ▸ hle
        · exact hall p h
    · have hstep : betterOf score (some b0) a = some b0 := by
        simp [betterOf, hlt]
      rw [hstep]
      rcases ih b0 with ⟨b, hfold, hmem, hle, hall⟩
      refine ⟨b, hfold, ?_, hle, ?_⟩
      · rcases hmem with h | h
        · exact Or.inl h
        · exact Or.inr (List.mem_cons_of_mem _ h)
      · intro p hp
        rcases List.mem_cons.mp hp with h | h
        · exact h ▸ le_trans (not_lt.mp hlt) hle
        · exact hall p h

/-- The argmax over a nonempty candidate list exists, is a candidate,
and scores at least as well as every candidate. -/
theorem best_estimator_argmax (grid : List XgbParams)
    (score : XgbParams → ℚ) (hne : grid ≠ []) :
    ∃ b : XgbParams, best_estimator grid score = some b ∧ b ∈ grid ∧
      ∀ p ∈ grid, score p ≤ score b := by
  cases grid with
  | nil => exact absurd rfl hne
  | cons a l =>
    rw [best_estimator, List.foldl_cons]
    have hstep : betterOf score none a = some a := rfl
    rw [hstep]
    rcases foldl_betterOf score l a with ⟨b, hfold, hmem, hle, hall⟩
    refine ⟨b, hfold, ?_, ?_⟩
    · rcases hmem with h | h
      · exact h ▸ List.mem_cons_self _ _
      · exact List.mem_cons_of_mem _ h
    · intro p hp
      rcases List.mem_cons.mp hp with h | h
      · exact h ▸ hle
      · exact hall p h

theorem mem_xgb_candidates (p : XgbParams) :
    p ∈ xgb_candidates ↔
      (p.max_depth ∈ max_depth_grid ∧
       p.colsample_bytree ∈ colsample_bytree_grid ∧
       p.learning_rate ∈ learning_rate_grid ∧
       p.min_child_weight ∈ min_child_weight_grid) := by
  rw [xgb_candidates]
  constructor
  · intro h
    simp only [List.mem_flatMap, List.mem_map] at h
    rcases h with ⟨d, hd, c, hc, lr, hlr, w, hw, he⟩
    rw [← he]
    exact ⟨hd, hc, hlr, hw⟩
  · rcases p with ⟨d, c, lr, w⟩
    rintro ⟨hd, hc, hlr, hw⟩
    simp only [List.mem_flatMap, List.mem_map]
    exact ⟨d, hd, c, hc, lr, hlr, w, hw, rfl⟩

/-- C7: the tuning run scores every combination of the declared grid by
the mean of its 5 cross-validation fold scores (`n_splits=5`, scoring
`"neg_log_loss"`), and the estimator that gets saved and evaluated is a
grid member whose mean cross-validated score is greatest. -/
theorem xgb_cv_spec (foldScore : XgbParams → Nat → ℚ) :
    (∀ p : XgbParams, p ∈ xgb_candidates ↔
        (p.max_depth ∈ max_depth_grid ∧
         p.colsample_bytree ∈ colsample_bytree_grid ∧
         p.learning_rate ∈ learning_rate_grid ∧
         p.min_child_weight ∈ min_child_weight_grid)) ∧
    xgb_n_splits = 5 ∧
    xgb_scoring = "neg_log_loss" ∧
    (∀ p : XgbParams, mean_cv_score foldScore p
        = ((List.range 5).map (foldScore p)).sum / 5) ∧
    (∃ b : XgbParams,
      best_estimator xgb_candidates (mean_cv_score foldScore) = some b ∧
      b ∈ xgb_candidates ∧
      ∀ p ∈ xgb_candidates,
        mean_cv_score foldScore p ≤ mean_cv_score foldScore b) := by
  refine ⟨mem_xgb_candidates, rfl, rfl, ?_, ?_⟩
  · intro p
    rw [mean_cv_score, qmean, xgb_n_splits]
    norm_num
  · apply best_estimator_argmax
    simp [xgb_candidates, max_depth_grid, colsample_bytree_grid,
      learning_rate_grid, min_child_weight_grid]

end CSGO

namespace CSGO

theorem lookupCol_cons_ne (p : String × List ℝ) (t : RFrame) (c : String)
    (h : ¬ p.1 = c) : lookupCol (p :: t) c = lookupCol t c := by
  rw [lookupCol, lookupCol, List.find?_cons_of_neg]
  simpa using h

theorem lookupCol_assignCols (target : RFrame) (cols : List String)
    (sub : List (List ℝ)) (c : String) :
    lookupCol (assignCols target cols sub) c
      = if c ∈ cols ∧ (target.find? (fun p => p.1 = c)).isSome
        then sub.getD (cols.indexOf c) []
        else lookupCol target c := by
  induction target with
  | nil => simp [assignCols, lookupCol]
  | cons p t ih =>
    rw [assignCols, List.map_cons]
    by_cases hpc : p.1 = c
    · by_cases hcc : c ∈ cols
      · have hpin : p.1 ∈ cols := by rw [hpc]; exact hcc
        rw [if_pos hpin]
        simp [lookupCol, List.find?_cons, hpc, hcc]
      · have hpin : p.1 ∉ cols := by rw [hpc]; exact hcc
        rw [if_neg hpin]
        simp [lookupCol, List.find?_cons, hpc, hcc]
    · rw [assignCols, lookupCol] at ih
      rw [lookupCol,
        List.find?_cons_of_neg _ (by by_cases h : p.1 ∈ cols <;> simp [h, hpc]),
        List.find?_cons_of_neg _ (by simp [hpc]),
        lookupCol_cons_ne p t c hpc]
      exact ih

/-- A column listed in `cols` comes out of the scaling step transformed
by `x ↦ (x − mean)/std` with statistics fitted on the training frame. -/
theorem lookupCol_scaleFrame_mem (train target : RFrame)
    (cols : List String) (c : String) (hc : c ∈ cols) :
    lookupCol (scaleFrame train target cols) c
      = (lookupCol target c).map
          (fun x => (x - colMean (lookupCol train c))
            / colStd (lookupCol train c)) := by
  rw [scaleFrame, lookupCol_assignCols]
  by_cases hsome : (target.find? (fun p => p.1 = c)).isSome
  · rw [if_pos ⟨hc, hsome⟩]
    have hilt : cols.indexOf c < cols.length := List.indexOf_lt_length.mpr hc
    have hlen : (transformSub (fitStats train cols)
        (cols.map (fun c => lookupCol target c))).length = cols.length := by
      rw [transformSub, List.length_zipWith, fitStats, List.length_map,
        List.length_map, Nat.min_self]
    rw [List.getD_eq_getElem?_getD,
      List.getElem?_eq_getElem (by rw [hlen]; exact hilt)]
    simp only [transformSub, List.getElem_zipWith, fitStats,
      List.getElem_map, List.getElem_indexOf hilt, Option.getD_some]
  · rw [if_neg (fun hand => hsome hand.2)]
    have hnone : target.find? (fun p => p.1 = c) = none :=
      Option.not_isSome_iff_eq_none.mp hsome
    rw [lookupCol, hnone]
    rfl

/-- A column not listed in `cols` passes through the scaling step
unchanged. -/
theorem lookupCol_scaleFrame_not_mem (train target : RFrame)
    (cols : List String) (c : String) (hc : c ∉ cols) :
    lookupCol (scaleFrame train target cols) c = lookupCol target c := by
  rw [scaleFrame, lookupCol_assignCols, if_neg (fun hand => hc hand.1)]

/-- C6: the scaler statistics (per-column mean and standard deviation)
come from the training frame only; the identical affine map
`x ↦ (x − train_mean)/train_std` is applied to each `cols_scaled`
column of both the training and the test frame, and every column not in
`cols_scaled` keeps its values in both frames. -/
theorem standardization_spec (train target : RFrame) (c : String) :
    (c ∈ cols_scaled →
      lookupCol (scaleFrame train train cols_scaled) c
        = (lookupCol train c).map
            (fun x => (x - colMean (lookupCol train c))
              / colStd (lookupCol train c)) ∧
      lookupCol (scaleFrame train target cols_scaled) c
        = (lookupCol target c).map
            (fun x => (x - colMean (lookupCol train c))
              / colStd (lookupCol train c))) ∧
    (c ∉ cols_scaled →
      lookupCol (scaleFrame train train cols_scaled) c = lookupCol train c ∧
      lookupCol (scaleFrame train target cols_scaled) c = lookupCol target c) :=
  ⟨fun hc => ⟨lookupCol_scaleFrame_mem train train _ c hc,
      lookupCol_scaleFrame_mem train target _ c hc⟩,
   fun hc => ⟨lookupCol_scaleFrame_not_mem train train _ c hc,
      lookupCol_scaleFrame_not_mem train target _ c hc⟩⟩

/-- Witness for C6 at a concrete pair of frames: the training column
[0, 2] has mean 1 and standard deviation 1, so the test value 3 is sent
to 2. -/
theorem standardization_spec_witness :
    lookupCol (scaleFrame [("TicksSinceStart", [(0 : ℝ), 2])]
        [("TicksSinceStart", [(3 : ℝ)])] cols_scaled) "TicksSinceStart"
      = [2] := by
  have h := ((standardization_spec [("TicksSinceStart", [(0 : ℝ), 2])]
      [("TicksSinceStart", [(3 : ℝ)])] "TicksSinceStart").1 (by decide)).2
  rw [h]
  have hxs : lookupCol [("TicksSinceStart", [(0 : ℝ), 2])] "TicksSinceStart"
      = [0, 2] := by
    simp [lookupCol, List.find?]
  have hmean : colMean (lookupCol [("TicksSinceStart", [(0 : ℝ), 2])]
      "TicksSinceStart") = 1 := by
    rw [hxs]
    norm_num [colMean, List.sum_cons, List.sum_nil]
  have hstd : colStd (lookupCol [("TicksSinceStart", [(0 : ℝ), 2])]
      "TicksSinceStart") = 1 := by
    rw [colStd]
    have hvar : colVar (lookupCol [("TicksSinceStart", [(0 : ℝ), 2])]
        "TicksSinceStart") = 1 := by
      rw [colVar, hmean, hxs]
      norm_num [List.map_cons, List.map_nil, List.sum_cons, List.sum_nil]
    rw [hvar, Real.sqrt_one]
  rw [hmean, hstd]
  have hts : lookupCol [("TicksSinceStart", [(3 : ℝ)])] "TicksSinceStart"
      = [3] := by
    simp [lookupCol, List.find?]
  rw [hts]
  norm_num [List.map_cons, List.map_nil]

end CSGO

namespace CSGO

theorem zipWith_map_same {α β γ δ : Type} (f : β → γ → δ) (g : α → β)
    (h : α → γ) (l : List α) :
    List.zipWith f (l.map g) (l.map h) = l.map (fun x => f (g x) (h x)) := by
  induction l with
  | nil => rfl
  | cons a l ih => simp only [List.map_cons, List.zipWith_cons_cons, ih]

theorem zip_map_self {α β : Type} (f : α → β) (l : List α) :
    l.zip (l.map f) = l.map (fun x => (x, f x)) := by
  induction l with
  | nil => rfl
  | cons a l ih => simp only [List.map_cons, List.zip_cons_cons, ih]

theorem encodeStep_eq_map (df : List DRow) (col : String) :
    encodeStep df col = df.map (stepRow (categories df col) col) := by
  rw [encodeStep, get_dummies, restoreCol, zipWith_map_same]
  rfl

theorem str_length_zero (s : String) (h : s.length = 0) : s = "" := by
  cases s with
  | mk data =>
    rw [String.length] at h
    simp at h
    simp [h]

theorem str_append_cancel (p a b : String) (h : p ++ a = p ++ b) : a = b := by
  have hd : (p ++ a).data = (p ++ b).data := congrArg String.data h
  rw [String.data_append, String.data_append] at hd
  have h2 := List.append_cancel_left hd
  cases a; cases b
  simp only at h2
  rw [h2]

theorem dummy_name_ne_col (col m : String) : ¬ (col ++ "_" ++ m = col) := by
  intro h
  have hl := congrArg String.length h
  rw [String.length_append, String.length_append] at hl
  rw [show ("_" : String).length = 1 from rfl] at hl
  omega

theorem mapdummy_ne_bombsite (m : String) :
    ¬ ("MapName_" ++ m = "BombSite") := by
  intro h
  have hl := congrArg String.length h
  rw [String.length_append] at hl
  rw [show ("MapName_" : String).length = 8 from rfl,
    show ("BombSite" : String).length = 8 from rfl] at hl
  have hme : m = "" := str_length_zero m (by omega)
  rw [hme] at h
  exact absurd h (by decide)

theorem getVal_append_of_some (r r' : DRow) (c : String) (v : Val)
    (h : getVal r c = some v) : getVal (r ++ r') c = some v := by
  rw [getVal] at h ⊢
  rw [List.find?_append]
  cases hf : List.find? (fun p => p.1 = c) r with
  | none => rw [hf] at h; cases h
  | some q =>
    rw [hf] at h
    simpa using h

theorem getVal_append_of_none (r r' : DRow) (c : String)
    (h : getVal r c = none) : getVal (r ++ r') c = getVal r' c := by
  rw [getVal] at h ⊢
  rw [List.find?_append]
  cases hf : List.find? (fun p => p.1 = c) r with
  | none => simp [hf, getVal]
  | some q => rw [hf] at h; simp at h

theorem getVal_filter_ne (r : DRow) (c col : String) (h : ¬ c = col) :
    getVal (r.filter (fun p => p.1 ≠ col)) c = getVal r c := by
  induction r with
  | nil => rfl
  | cons q t ih =>
    rw [List.filter_cons]
    by_cases hq : q.1 = c
    · have hqcol : ¬ (q.1 = col) := by rw [hq]; exact h
      rw [if_pos (by simpa using hqcol)]
      rw [getVal, getVal, List.find?_cons_of_pos _ (by simpa using hq),
        List.find?_cons_of_pos _ (by simpa using hq)]
    · by_cases hqc : q.1 = col
      · rw [if_neg (by simpa using hqc)]
        rw [ih, getVal, getVal, List.find?_cons_of_neg _ (by simpa using hq)]
      · rw [if_pos (by simpa using hqc)]
        rw [getVal, getVal, List.find?_cons_of_neg _ (by simpa using hq),
          List.find?_cons_of_neg _ (by simpa using hq)]
        rw [getVal, getVal] at ih
        exact ih

theorem getVal_filter_self (r : DRow) (col : String) :
    getVal (r.filter (fun p => p.1 ≠ col)) col = none := by
  rw [getVal]
  have hnone : List.find? (fun p => p.1 = col)
      (r.filter (fun p => p.1 ≠ col)) = none := by
    rw [List.find?_eq_none]
    intro x hx
    have hmem := (List.mem_filter.mp hx).2
    simp only [decide_eq_true_eq] at hmem ⊢
    simpa using hmem
  rw [hnone]
  rfl

theorem getVal_dummyCols (cats : List String) (col : String) (r : DRow)
    (m : String) (hm : m ∈ cats) :
    getVal (dummyCols cats col r) (col ++ "_" ++ m)
      = some (.num (if getVal r col = some (.str m) then 1 else 0)) := by
  induction cats with
  | nil => cases hm
  | cons a as ih =>
    rw [dummyCols, List.map_cons]
    by_cases ham : a = m
    · subst ham
      rw [getVal, List.find?_cons_of_pos _ (by simp)]
      rfl
    · rcases List.mem_cons.mp hm with he | hmem
      · exact absurd he.symm ham
      · rw [getVal, List.find?_cons_of_neg _ ?hne]
        · rw [dummyCols, getVal] at ih
          exact ih hmem
        case hne =>
          simp only [decide_eq_true_eq]
          intro hcontra
          exact ham (str_append_cancel _ _ _ hcontra)

theorem getVal_dummyCols_col (cats : List String) (col : String) (r : DRow) :
    getVal (dummyCols cats col r) col = none := by
  rw [getVal]
  have hnone : List.find? (fun p => p.1 = col) (dummyCols cats col r)
      = none := by
    rw [List.find?_eq_none]
    intro x hx
    rcases List.mem_map.mp hx with ⟨m, _, he⟩
    rw [← he]
    simp only [decide_eq_true_eq]
    exact dummy_name_ne_col col m
  rw [hnone]
  rfl

/-- After a round on column `col`, the indicator column of category `m`
holds 1 iff the row's value was `m` (needs the row not to have carried a
column of that name already). -/
theorem getVal_stepRow_dummy (cats : List String) (col : String) (r : DRow)
    (m : String) (hm : m ∈ cats)
    (hnc : getVal r (col ++ "_" ++ m) = none) :
    getVal (stepRow cats col r) (col ++ "_" ++ m)
      = some (.num (if getVal r col = some (.str m) then 1 else 0)) := by
  have h1 : getVal (r.filter (fun p => p.1 ≠ col)) (col ++ "_" ++ m)
      = none := by
    rw [getVal_filter_ne _ _ _ (dummy_name_ne_col col m)]
    exact hnc
  have h3 : getVal ((r.filter (fun p => p.1 ≠ col)) ++ dummyCols cats col r)
      (col ++ "_" ++ m)
      = some (.num (if getVal r col = some (.str m) then 1 else 0)) := by
    rw [getVal_append_of_none _ _ _ h1]
    exact getVal_dummyCols cats col r m hm
  rw [stepRow]
  cases hv : getVal r col with
  | some v =>
    rw [hv] at h3
    exact getVal_append_of_some _ _ _ _ h3
  | none =>
    rw [hv] at h3
    exact h3

/-- After a round on column `col`, the column itself carries its saved
original value. -/
theorem getVal_stepRow_col (cats : List String) (col : String) (r : DRow)
    (v : Val) (hv : getVal r col = some v) :
    getVal (stepRow cats col r) col = some v := by
  rw [stepRow, hv]
  have h1 : getVal (r.filter (fun p => p.1 ≠ col)) col = none :=
    getVal_filter_self r col
  have h3 : getVal ((r.filter (fun p => p.1 ≠ col)) ++ dummyCols cats col r)
      col = none := by
    rw [getVal_append_of_none _ _ _ h1]
    exact getVal_dummyCols_col cats col r
  rw [getVal_append_of_none _ _ _ h3]
  simp [getVal, List.find?]

/-- A round on column `col` does not disturb any other column the row
already carried. -/
theorem getVal_stepRow_other (cats : List String) (col : String) (r : DRow)
    (c : String) (w : Val) (hc : ¬ c = col) (hw : getVal r c = some w) :
    getVal (stepRow cats col r) c = some w := by
  have h1 : getVal (r.filter (fun p => p.1 ≠ col)) c = some w := by
    rw [getVal_filter_ne _ _ _ hc]
    exact hw
  have h3 : getVal ((r.filter (fun p => p.1 ≠ col)) ++ dummyCols cats col r) c
      = some w := getVal_append_of_some _ _ _ _ h1
  rw [stepRow]
  cases hv : getVal r col with
  | some v => exact getVal_append_of_some _ _ _ _ h3
  | none => exact h3

theorem nodup_uniqAux (l : List String) :
    ∀ seen : List String, (uniqAux seen l).Nodup := by
  induction l with
  | nil => intro seen; simp [uniqAux]
  | cons x xs ih =>
    intro seen
    rw [uniqAux]
    by_cases hx : x ∈ seen
    · rw [if_pos hx]; exact ih seen
    · rw [if_neg hx]
      refine List.nodup_cons.mpr ⟨?_, ih (x :: seen)⟩
      intro hmem
      exact ((mem_uniqAux xs (x :: seen) x).mp hmem).2 (List.mem_cons_self _ _)

theorem filter_eq_length_one (l : List String) (hnd : l.Nodup) (s : String)
    (hs : s ∈ l) : (l.filter (fun m => s = m)).length = 1 := by
  induction l with
  | nil => cases hs
  | cons a as ih =>
    rw [List.filter_cons]
    by_cases ha : s = a
    · rw [if_pos (by simpa using ha)]
      have hnotin : a ∉ as := (List.nodup_cons.mp hnd).1
      have hfil : as.filter (fun m => s = m) = [] := by
        rw [List.filter_eq_nil_iff]
        intro x hx
        simp only [decide_eq_true_eq]
        intro hsx
        exact hnotin (by rw [ha] at hsx; rw [← hsx] at hx; exact hx)
      rw [hfil]
      rfl
    · rw [if_neg (by simpa using ha)]
      rcases List.mem_cons.mp hs with he | hmem
      · exact absurd he ha
      · exact ih (List.nodup_cons.mp hnd).2 hmem

theorem mem_categories_of_row (df : List DRow) (r : DRow) (col s : String)
    (hr : r ∈ df) (hs : getVal r col = some (.str s)) :
    s ∈ categories df col := by
  rw [categories, mem_uniqAux]
  refine ⟨?_, List.not_mem_nil s⟩
  rw [colStrs]
  exact List.mem_filterMap.mpr ⟨r, hr, by rw [hs]⟩

/-- C5: after the preprocessing cell, for every row and every map value
m of the data, the indicator `MapName_<m>` is 1 exactly when the row's
original MapName is m (so exactly one indicator per row is 1); the
MapName and BombSite columns are restored to their pre-encoding values,
and every other pre-existing column is unchanged. -/
theorem preprocess_spec (df : List DRow)
    (hmn : ∀ r ∈ df, ∃ s : String, getVal r "MapName" = some (.str s))
    (hbs : ∀ r ∈ df, ∃ s : String, getVal r "BombSite" = some (.str s))
    (hclash : ∀ r ∈ df, ∀ m : String, getVal r ("MapName_" ++ m) = none) :
    (preprocess df).length = df.length ∧
    ∀ q ∈ df.zip (preprocess df),
      (∀ m ∈ categories df "MapName",
        getVal q.2 ("MapName_" ++ m)
          = some (.num (if getVal q.1 "MapName" = some (.str m)
              then 1 else 0))) ∧
      ((categories df "MapName").filter
          (fun m => getVal q.2 ("MapName_" ++ m) = some (.num 1))).length
        = 1 ∧
      getVal q.2 "MapName" = getVal q.1 "MapName" ∧
      getVal q.2 "BombSite" = getVal q.1 "BombSite" ∧
      (∀ c : String, ∀ w : Val, c ≠ "MapName" → c ≠ "BombSite" →
        getVal q.1 c = some w → getVal q.2 c = some w) := by
  have hpre : preprocess df
      = df.map (fun r =>
          stepRow (categories (df.map (stepRow (categories df "MapName")
              "MapName")) "BombSite") "BombSite"
            (stepRow (categories df "MapName") "MapName" r)) := by
    rw [preprocess, encodeStep_eq_map df "MapName", encodeStep_eq_map,
      List.map_map]
    rfl
  constructor
  · rw [hpre, List.length_map]
  · intro q hq
    rw [hpre, zip_map_self] at hq
    rcases List.mem_map.mp hq with ⟨r, hr, he⟩
    rcases q with ⟨q1, q2⟩
    have he' : (r,
        stepRow (categories (df.map (stepRow (categories df "MapName")
            "MapName")) "BombSite") "BombSite"
          (stepRow (categories df "MapName") "MapName" r)) = (q1, q2) := he
    injection he' with he1 he2
    subst he1
    subst he2
    obtain ⟨s1, hs1⟩ := hmn r hr
    obtain ⟨s2, hs2⟩ := hbs r hr
    have hstep1_mn :
        getVal (stepRow (categories df "MapName") "MapName" r) "MapName"
          = some (.str s1) := getVal_stepRow_col _ _ _ _ hs1
    have hstep1_bs :
        getVal (stepRow (categories df "MapName") "MapName" r) "BombSite"
          = some (.str s2) := getVal_stepRow_other _ _ _ _ _ (by decide) hs2
    have parta : ∀ m ∈ categories df "MapName",
        getVal (stepRow (categories (df.map (stepRow (categories df "MapName")
            "MapName")) "BombSite") "BombSite"
          (stepRow (categories df "MapName") "MapName" r)) ("MapName_" ++ m)
          = some (.num (if getVal r "MapName" = some (.str m)
              then 1 else 0)) := by
      intro m hm
      have hd1 : getVal (stepRow (categories df "MapName") "MapName" r)
          ("MapName_" ++ m)
          = some (.num (if getVal r "MapName" = some (.str m)
              then 1 else 0)) :=
        getVal_stepRow_dummy (categories df "MapName") "MapName" r m hm
          (hclash r hr m)
      exact getVal_stepRow_other _ _ _ _ _ (mapdummy_ne_bombsite m) hd1
    refine ⟨parta, ?_, ?_, ?_, ?_⟩
    · have hcongr : ∀ m ∈ categories df "MapName",
          (decide (getVal (stepRow (categories (df.map
              (stepRow (categories df "MapName") "MapName")) "BombSite")
              "BombSite" (stepRow (categories df "MapName") "MapName" r))
              ("MapName_" ++ m) = some (Val.num 1)))
            = decide (s1 = m) := by
        intro m hm
        rw [parta m hm, hs1]
        by_cases h : s1 = m
        · subst h; simp
        · simp [h]
      rw [List.filter_congr hcongr]
      refine filter_eq_length_one _ ?_ s1
        (mem_categories_of_row df r "MapName" s1 hr hs1)
      rw [categories]
      exact nodup_uniqAux _ _
    · have h2 : getVal (stepRow (categories (df.map
          (stepRow (categories df "MapName") "MapName")) "BombSite")
          "BombSite" (stepRow (categories df "MapName") "MapName" r)) "MapName"
          = some (.str s1) :=
        getVal_stepRow_other _ _ _ _ _ (by decide) hstep1_mn
      rw [h2, hs1]
    · have h2 : getVal (stepRow (categories (df.map
          (stepRow (categories df "MapName") "MapName")) "BombSite")
          "BombSite" (stepRow (categories df "MapName") "MapName" r))
          "BombSite" = some (.str s2) :=
        getVal_stepRow_col _ _ _ _ hstep1_bs
      rw [h2, hs2]
    · intro c w hcm hcb hw
      exact getVal_stepRow_other _ _ _ _ _ hcb
        (getVal_stepRow_other _ _ _ _ _ hcm hw)

theorem ne_mapdummy_short (k m : String) (hk : k.length < 8) :
    ¬ (k = "MapName_" ++ m) := by
  intro h
  have hl := congrArg String.length h
  rw [String.length_append,
    show ("MapName_" : String).length = 8 from rfl] at hl
  omega

/-- Witness for C5 at a concrete one-row dataframe. -/
theorem preprocess_spec_witness :
    (preprocess [[("Date", Val.num 3), ("MapName", Val.str "de_dust2"),
        ("BombSite", Val.str "A"), ("CTWin", Val.num 1)]]).length = 1 := by
  have h := preprocess_spec
    [[("Date", Val.num 3), ("MapName", Val.str "de_dust2"),
      ("BombSite", Val.str "A"), ("CTWin", Val.num 1)]]
    (by
      intro r hr
      rw [List.mem_singleton] at hr
      subst hr
      exact ⟨"de_dust2", by decide⟩)
    (by
      intro r hr
      rw [List.mem_singleton] at hr
      subst hr
      exact ⟨"A", by decide⟩)
    (by
      intro r hr m
      rw [List.mem_singleton] at hr
      subst hr
      rw [getVal]
      have hnone : List.find? (fun p => p.1 = "MapName_" ++ m)
          [("Date", Val.num 3), ("MapName", Val.str "de_dust2"),
           ("BombSite", Val.str "A"), ("CTWin", Val.num 1)] = none := by
        rw [List.find?_eq_none]
        intro x hx
        simp only [List.mem_cons, List.not_mem_nil, or_false] at hx
        simp only [decide_eq_true_eq]
        rcases hx with rfl | rfl | rfl | rfl
        · exact ne_mapdummy_short _ m (by decide)
        · exact ne_mapdummy_short _ m (by decide)
        · exact fun hh => mapdummy_ne_bombsite m hh.symm
        · exact ne_mapdummy_short _ m (by decide)
      rw [hnone]
      rfl)
  exact h.1

end CSGO
